import Mathlib

/-!
Shallow embedding of the whack-a-mole game core (src/App.tsx, src/types.ts).

The React component is modelled as a state machine: every `useState`/`useRef`
cell becomes a field of `GState`, and each callback of the source becomes a
state-transition function.  Randomness (`Math.random()`) is passed in
explicitly: the draw used by `randomTime` is a rational in `[0,1)`, and the
successive draws consumed by the rejection-sampling loop of `randomHole` are
given as a list of candidate indices (an empty remainder models divergence of
the rejection loop, hence `Option`).  Browser timers are modelled explicitly:
the list `peepTimers` holds the pending hide timers (newest first, matching
`peepTimerRef` holding the most recently armed id), and a timer can only fire
while it is pending; `clearTimeout`/`clearInterval` remove the pending timer.
-/

/-- `GAME_DURATION` from src/App.tsx (seconds). -/
def GAME_DURATION : Nat := 30

/-- `MIN_PEEP_TIME` from src/App.tsx (ms). -/
def MIN_PEEP_TIME : Int := 400

/-- `MAX_PEEP_TIME` from src/App.tsx (ms). -/
def MAX_PEEP_TIME : Int := 1000

/-- `HOLE_COUNT` from src/App.tsx. -/
def HOLE_COUNT : Nat := 6

/-- `MoleStatus` from src/types.ts.  Spec naming: IDLE = HIDDEN, UP = VISIBLE,
WHACKED = HIT. -/
inductive MoleStatus where
  | IDLE
  | UP
  | WHACKED
deriving DecidableEq, Repr

/-- `MoleData` from src/types.ts. -/
structure MoleData where
  id : Nat
  status : MoleStatus
deriving DecidableEq, Repr

/-- `randomTime(min, max)` from src/App.tsx:
`Math.round(Math.random() * (max - min) + min)` with the `Math.random()`
draw `q ∈ [0,1)` made explicit.  `Math.round` is round-half-up, which is
Mathlib `round` on `ℚ`. -/
def randomTime (min max : Int) (q : ℚ) : Int :=
  round (q * ((max : ℚ) - (min : ℚ)) + (min : ℚ))

/-- `randomHole(currentMoles)` from src/App.tsx.  Each recursive redraw
consumes the next index `Math.floor(Math.random() * currentMoles.length)`
from `draws`; the hole equal to `lastHole` is rejected and redrawn.
`none` models an exhausted draw stream (the source would keep recursing). -/
def randomHole (currentMoles : List MoleData) (lastHole : Int) :
    List Nat → Option Nat
  | [] => none
  | idx :: rest =>
    match currentMoles.get? idx with
    | none => none
    | some m =>
      if (m.id : Int) = lastHole then randomHole currentMoles lastHole rest
      else some m.id

/-- The initial mole board of src/App.tsx:
`Array.from({length: HOLE_COUNT}, (_, i) => ({id: i, status: IDLE}))`. -/
def initMoles : List MoleData :=
  (List.range HOLE_COUNT).map (fun i => { id := i, status := MoleStatus.IDLE })

/-- The component state of src/App.tsx: the `useState` cells
(`moles`, `score`, `highScore`, `timeLeft`, `isPlaying`) and the `useRef`
cells (`lastHoleRef`, and the pending timers behind `peepTimerRef` /
`gameTimerRef`).  `peepTimers` lists the pending hide timers as
(hole, durationMs), newest first; `gameTimer` records whether the
one-second interval is armed.

`capturedScore` models the stale closure of the source: the interval armed in
`startGame` captures the `endGame` instance of the render at which Start was
clicked, and that instance reads the `score` state variable directly (not
through a ref or a functional updater), so it sees the value committed at
that render — the pre-reset, previous-round score — not the live score.
`capturedScore` holds that captured value; at mount it is the mount render's
score, 0. -/
structure GState where
  moles : List MoleData
  score : Nat
  highScore : Nat
  timeLeft : Nat
  isPlaying : Bool
  lastHole : Int
  peepTimers : List (Nat × Int)
  gameTimer : Bool
  capturedScore : Nat
deriving DecidableEq, Repr

/-- The state at component mount: `useState` initializers and
`lastHoleRef = useRef(-1)`. -/
def GState.init : GState :=
  { moles := initMoles
    score := 0
    highScore := 0
    timeLeft := GAME_DURATION
    isPlaying := false
    lastHole := -1
    peepTimers := []
    gameTimer := false
    capturedScore := 0 }

/-- `peep()` from src/App.tsx: bail out if not playing; draw a duration and a
hole; set that hole UP; arm the hide timer for the drawn duration.
(`lastHoleRef.current = hole` happens inside `randomHole` on success;
we record it on the caller's state.) -/
def peep (q : ℚ) (draws : List Nat) (s : GState) : Option GState :=
  if !s.isPlaying then some s
  else
    let time := randomTime MIN_PEEP_TIME MAX_PEEP_TIME q
    match randomHole s.moles s.lastHole draws with
    | none => none
    | some holeIdx =>
      some { s with
        lastHole := (holeIdx : Int)
        moles := s.moles.map (fun m =>
          if m.id = holeIdx then { m with status := MoleStatus.UP } else m)
        peepTimers := (holeIdx, time) :: s.peepTimers }

/-- `startGame()` from src/App.tsx: no-op while playing; otherwise reset
score/clock/board, set playing, run `peep()`, arm the interval.  The interval
callback closes over the `endGame` of the Start-click render, whose `score`
is the pre-reset value `s.score`: that value is recorded as `capturedScore`. -/
def startGame (q : ℚ) (draws : List Nat) (s : GState) : Option GState :=
  if s.isPlaying then some s
  else
    let s1 := { s with
      score := 0
      timeLeft := GAME_DURATION
      isPlaying := true
      moles := initMoles
      capturedScore := s.score }
    match peep q draws s1 with
    | none => none
    | some s2 => some { s2 with gameTimer := true }

/-- `endGame()` from src/App.tsx: stop playing, clear the interval, clear the
referenced (most recently armed) hide timer, force every mole IDLE, and run
`setHighScore(prev => Math.max(prev, score))`.  The only caller of `endGame`
is the interval callback armed in `startGame`, so the `score` it reads is the
stale value captured at the Start-click render, `capturedScore` — not the
round's live final score. -/
def endGame (s : GState) : GState :=
  { s with
    isPlaying := false
    gameTimer := false
    peepTimers := s.peepTimers.drop 1
    moles := s.moles.map (fun m => { m with status := MoleStatus.IDLE })
    highScore := Nat.max s.highScore s.capturedScore }

/-- `handleWhack(id, isTrusted)` from src/App.tsx: ignored unless trusted and
playing; every mole with this id whose status is UP becomes WHACKED and
triggers one `setScore(s => s + 1)`. -/
def handleWhack (id : Nat) (isTrusted : Bool) (s : GState) : GState :=
  if !isTrusted || !s.isPlaying then s
  else
    { s with
      moles := s.moles.map (fun m =>
        if m.id = id ∧ m.status = MoleStatus.UP then
          { m with status := MoleStatus.WHACKED }
        else m)
      score := s.score +
        s.moles.countP (fun m => decide (m.id = id ∧ m.status = MoleStatus.UP)) }

/-- The hide-timer callback armed in `peep()`: fires only while its timer is
pending; forces the shown hole IDLE unconditionally ("we force it down even
if whacked"), then re-enters `peep()` if still playing. -/
def fireHide (q : ℚ) (draws : List Nat) (s : GState) : Option GState :=
  match s.peepTimers with
  | [] => none
  | (holeIdx, _) :: rest =>
    let s1 := { s with
      peepTimers := rest
      moles := s.moles.map (fun m =>
        if m.id = holeIdx then { m with status := MoleStatus.IDLE } else m) }
    if s1.isPlaying then peep q draws s1 else some s1

/-- The interval callback armed in `startGame()`: fires only while the
interval is armed; `setTimeLeft(prev => prev <= 1 ? (endGame(); 0) : prev-1)`. -/
def fireTick (s : GState) : Option GState :=
  if !s.gameTimer then none
  else if s.timeLeft ≤ 1 then some { endGame s with timeLeft := 0 }
  else some { s with timeLeft := s.timeLeft - 1 }

/-- The external events that drive the component: a Start click, a whack on a
hole (with its `isTrusted` flag), a pending hide timer firing, and the
one-second interval firing. -/
inductive Event where
  | start (q : ℚ) (draws : List Nat)
  | whack (id : Nat) (trusted : Bool)
  | hide (q : ℚ) (draws : List Nat)
  | tick

/-- One event step. -/
def applyEvent : Event → GState → Option GState
  | Event.start q draws, s => startGame q draws s
  | Event.whack id trusted, s => some (handleWhack id trusted s)
  | Event.hide q draws, s => fireHide q draws s
  | Event.tick, s => fireTick s

/-- Run a sequence of events. -/
def runTrace : List Event → GState → Option GState
  | [], s => some s
  | e :: tr, s =>
    match applyEvent e s with
    | none => none
    | some s' => runTrace tr s'

/-- A state the component can actually be in: reachable from mount by a
sequence of events. -/
def Reachable (s : GState) : Prop :=
  ∃ tr : List Event, runTrace tr GState.init = some s

/-- Observation: the status of the mole with the given id (what the `Mole`
component of hole `i` renders). -/
def statusAt (s : GState) (i : Nat) : Option MoleStatus :=
  (s.moles.find? (fun m => m.id == i)).map MoleData.status

/-! ### Helper lemmas about `randomHole` -/

theorem randomHole_ne_last (l : List MoleData) (last : Int) (draws : List Nat)
    (h : Nat) (hh : randomHole l last draws = some h) : (h : Int) ≠ last := by
  induction draws with
  | nil => simp [randomHole] at hh
  | cons d rest ih =>
    simp only [randomHole] at hh
    split at hh
    · cases hh
    · split at hh
      · exact ih hh
      · next hne =>
        cases hh
        exact hne

theorem randomHole_mem (l : List MoleData) (last : Int) (draws : List Nat)
    (h : Nat) (hh : randomHole l last draws = some h) : ∃ m ∈ l, m.id = h := by
  induction draws with
  | nil => simp [randomHole] at hh
  | cons d rest ih =>
    simp only [randomHole] at hh
    split at hh
    · cases hh
    · next m hget =>
      split at hh
      · exact ih hh
      · cases hh
        exact ⟨m, List.get?_mem hget, rfl⟩

/-! ### Helper lemmas about id-preserving mole updates -/

theorem ids_map (f : MoleData → MoleData) (hf : ∀ m, (f m).id = m.id)
    (l : List MoleData) : (l.map f).map MoleData.id = l.map MoleData.id := by
  rw [List.map_map]
  exact List.map_congr_left (fun m _ => hf m)

theorem find?_id_map (f : MoleData → MoleData) (hf : ∀ m, (f m).id = m.id)
    (l : List MoleData) (i : Nat) :
    (l.map f).find? (fun m => m.id == i) =
      (l.find? (fun m => m.id == i)).map f := by
  have hp : ((fun m => m.id == i) ∘ f) = (fun (m : MoleData) => m.id == i) := by
    funext m
    simp [hf]
  rw [List.find?_map, hp]

theorem mole_unique (l : List MoleData) (hn : (l.map MoleData.id).Nodup)
    (m₁ m₂ : MoleData) (h₁ : m₁ ∈ l) (h₂ : m₂ ∈ l) (hid : m₁.id = m₂.id) :
    m₁ = m₂ := by
  induction l with
  | nil => cases h₁
  | cons a t ih =>
    rw [List.map_cons, List.nodup_cons] at hn
    rcases List.mem_cons.mp h₁ with rfl | h₁t
    · rcases List.mem_cons.mp h₂ with rfl | h₂t
      · rfl
      · exact absurd (hid ▸ List.mem_map_of_mem MoleData.id h₂t) hn.1
    · rcases List.mem_cons.mp h₂ with rfl | h₂t
      · exact absurd (hid ▸ List.mem_map_of_mem MoleData.id h₁t) hn.1
      · exact ih hn.2 h₁t h₂t

theorem statusAt_eq (s : GState) (i : Nat) :
    statusAt s i = (s.moles.find? (fun m => m.id == i)).map MoleData.status :=
  rfl

theorem find?_map_status (f : MoleData → MoleData) (hf : ∀ m, (f m).id = m.id)
    (l : List MoleData) (i : Nat) :
    ((l.map f).find? (fun m => m.id == i)).map MoleData.status =
      (l.find? (fun m => m.id == i)).map (fun m => (f m).status) := by
  rw [find?_id_map f hf]
  cases l.find? (fun m => m.id == i) <;> rfl

theorem find?_initMoles : ∀ i : Nat, i < HOLE_COUNT →
    initMoles.find? (fun m => m.id == i) =
      some { id := i, status := MoleStatus.IDLE } := by decide

theorem find?_eq_of_mem (l : List MoleData) (hn : (l.map MoleData.id).Nodup)
    (m : MoleData) (hm : m ∈ l) :
    l.find? (fun m' => m'.id == m.id) = some m := by
  induction l with
  | nil => cases hm
  | cons a t ih =>
    by_cases ha : a.id = m.id
    · have : m = a := by
        rcases List.mem_cons.mp hm with rfl | hmt
        · rfl
        · exact (mole_unique (a :: t) hn m a hm (List.mem_cons_self a t) ha.symm)
      subst this
      simp [List.find?_cons, ha]
    · rcases List.mem_cons.mp hm with rfl | hmt
      · exact absurd rfl ha
      · rw [List.map_cons, List.nodup_cons] at hn
        rw [List.find?_cons]
        have : (a.id == m.id) = false := by simp [ha]
        rw [this]
        exact ih hn.2 hmt

/-! ### Structural characterizations of the transition functions -/

theorem peep_not_playing (s : GState) (hplay : s.isPlaying = false)
    (q : ℚ) (draws : List Nat) : peep q draws s = some s := by
  simp [peep, hplay]

theorem peep_some_playing (s : GState) (hplay : s.isPlaying = true)
    (q : ℚ) (draws : List Nat) (s' : GState)
    (hp : peep q draws s = some s') :
    ∃ h : Nat, randomHole s.moles s.lastHole draws = some h ∧
      s' = { s with
        lastHole := (h : Int)
        moles := s.moles.map (fun m =>
          if m.id = h then { m with status := MoleStatus.UP } else m)
        peepTimers :=
          (h, randomTime MIN_PEEP_TIME MAX_PEEP_TIME q) :: s.peepTimers } := by
  rw [peep, hplay] at hp
  simp only [Bool.not_true, Bool.false_eq_true, if_false] at hp
  cases hr : randomHole s.moles s.lastHole draws with
  | none => rw [hr] at hp; cases hp
  | some h =>
    rw [hr] at hp
    cases hp
    exact ⟨h, rfl, by simp [hplay]⟩

theorem startGame_playing (s : GState) (hplay : s.isPlaying = true)
    (q : ℚ) (draws : List Nat) : startGame q draws s = some s := by
  simp [startGame, hplay]

theorem startGame_some_not_playing (s : GState) (hplay : s.isPlaying = false)
    (q : ℚ) (draws : List Nat) (s' : GState)
    (hs : startGame q draws s = some s') :
    ∃ h : Nat, randomHole initMoles s.lastHole draws = some h ∧
      s' = { s with
        score := 0
        timeLeft := GAME_DURATION
        isPlaying := true
        gameTimer := true
        lastHole := (h : Int)
        moles := initMoles.map (fun m =>
          if m.id = h then { m with status := MoleStatus.UP } else m)
        capturedScore := s.score
        peepTimers :=
          (h, randomTime MIN_PEEP_TIME MAX_PEEP_TIME q) :: s.peepTimers } := by
  rw [startGame, hplay] at hs
  simp only [Bool.false_eq_true, if_false] at hs
  cases hp : peep q draws
      { s with score := 0, timeLeft := GAME_DURATION, isPlaying := true,
               moles := initMoles, capturedScore := s.score } with
  | none => rw [hp] at hs; cases hs
  | some s2 =>
    rw [hp] at hs
    cases hs
    obtain ⟨h, hr, rfl⟩ := peep_some_playing _ rfl q draws s2 hp
    exact ⟨h, hr, rfl⟩

theorem fireHide_none (s : GState) (hempty : s.peepTimers = [])
    (q : ℚ) (draws : List Nat) : fireHide q draws s = none := by
  simp [fireHide, hempty]

theorem fireTick_none (s : GState) (hg : s.gameTimer = false) :
    fireTick s = none := by
  simp [fireTick, hg]

/-! ### The reachable-state invariant -/

/-- Invariant maintained by every event: the board always holds the six moles
with ids 0..5 in order; at most one hide timer is pending (none while not
playing); a pending timer names the last shown hole, which is a valid hole;
and every UP mole is the hole of a pending timer. -/
structure Invariant (s : GState) : Prop where
  ids : s.moles.map MoleData.id = List.range HOLE_COUNT
  timers_len : s.peepTimers.length ≤ 1
  not_playing_timers : s.isPlaying = false → s.peepTimers = []
  timers_last : ∀ p ∈ s.peepTimers, (p.1 : Int) = s.lastHole ∧ p.1 < HOLE_COUNT
  up_timers : ∀ m ∈ s.moles, m.status = MoleStatus.UP →
    ∃ p ∈ s.peepTimers, p.1 = m.id

theorem inv_init : Invariant GState.init := by
  refine ⟨?_, ?_, ?_, ?_, ?_⟩
  · simp [GState.init, initMoles, List.map_map]
    rfl
  · simp [GState.init]
  · intro _
    rfl
  · intro p hp
    simp [GState.init] at hp
  · intro m hm hup
    exfalso
    simp only [GState.init, initMoles, List.mem_map] at hm
    obtain ⟨i, _, rfl⟩ := hm
    cases hup

theorem ids_nodup (s : GState) (hids : s.moles.map MoleData.id = List.range HOLE_COUNT) :
    (s.moles.map MoleData.id).Nodup := by
  rw [hids]
  exact List.nodup_range _

theorem mem_id_lt (l : List MoleData)
    (hids : l.map MoleData.id = List.range HOLE_COUNT)
    (m : MoleData) (hm : m ∈ l) : m.id < HOLE_COUNT := by
  have : m.id ∈ l.map MoleData.id := List.mem_map_of_mem MoleData.id hm
  rw [hids, List.mem_range] at this
  exact this

theorem initMoles_status : ∀ m ∈ initMoles, m.status = MoleStatus.IDLE := by
  decide

theorem inv_peep (s : GState)
    (hids : s.moles.map MoleData.id = List.range HOLE_COUNT)
    (hempty : s.peepTimers = [])
    (hnoup : ∀ m ∈ s.moles, m.status ≠ MoleStatus.UP)
    (hplay : s.isPlaying = true)
    (q : ℚ) (draws : List Nat) (s' : GState)
    (hp : peep q draws s = some s') : Invariant s' := by
  obtain ⟨h, hr, rfl⟩ := peep_some_playing s hplay q draws s' hp
  obtain ⟨m0, hm0, hm0id⟩ := randomHole_mem _ _ _ _ hr
  have hlt : h < HOLE_COUNT := hm0id ▸ mem_id_lt s.moles hids m0 hm0
  refine ⟨?_, ?_, ?_, ?_, ?_⟩
  · dsimp only
    rw [ids_map _ (fun m => by split <;> rfl), hids]
  · dsimp only
    rw [hempty]
    simp
  · intro hfalse
    rw [hplay] at hfalse
    cases hfalse
  · intro p hp'
    dsimp only at hp' ⊢
    rw [hempty] at hp'
    rcases List.mem_cons.mp hp' with rfl | habs
    · exact ⟨rfl, hlt⟩
    · cases habs
  · intro m' hm' hup
    dsimp only at hm' ⊢
    obtain ⟨m, hm, rfl⟩ := List.mem_map.mp hm'
    by_cases hcase : m.id = h
    · refine ⟨(h, randomTime MIN_PEEP_TIME MAX_PEEP_TIME q), List.mem_cons_self _ _, ?_⟩
      simp [hcase]
    · rw [if_neg hcase] at hup ⊢
      exact absurd hup (hnoup m hm)

theorem inv_startGame (s : GState) (hI : Invariant s)
    (q : ℚ) (draws : List Nat) (s' : GState)
    (hs : startGame q draws s = some s') : Invariant s' := by
  cases hplay : s.isPlaying with
  | true =>
    rw [startGame_playing s hplay q draws] at hs
    cases hs
    exact hI
  | false =>
    rw [startGame, hplay] at hs
    simp only [Bool.false_eq_true, if_false] at hs
    cases hp : peep q draws
        { s with score := 0, timeLeft := GAME_DURATION, isPlaying := true,
                 moles := initMoles, capturedScore := s.score } with
    | none => rw [hp] at hs; cases hs
    | some s2 =>
      rw [hp] at hs
      cases hs
      have hi2 : Invariant s2 := by
        apply inv_peep _ _ _ _ _ q draws s2 hp
        · dsimp only
          rw [initMoles, List.map_map]
          rfl
        · dsimp only
          exact hI.not_playing_timers hplay
        · intro m hm
          dsimp only at hm
          rw [initMoles_status m hm]
          intro habs
          cases habs
        · rfl
      exact ⟨hi2.ids, hi2.timers_len,
        (by intro hfalse
            obtain ⟨h, _, rfl⟩ := peep_some_playing _ rfl q draws s2 hp
            cases hfalse),
        hi2.timers_last, hi2.up_timers⟩

theorem inv_handleWhack (s : GState) (hI : Invariant s) (id : Nat) (t : Bool) :
    Invariant (handleWhack id t s) := by
  rw [handleWhack]
  split
  · exact hI
  · refine ⟨?_, hI.timers_len, hI.not_playing_timers, hI.timers_last, ?_⟩
    · dsimp only
      rw [ids_map _ (fun m => by split <;> rfl), hI.ids]
    · intro m' hm' hup
      dsimp only at hm' ⊢
      obtain ⟨m, hm, rfl⟩ := List.mem_map.mp hm'
      by_cases hcase : m.id = id ∧ m.status = MoleStatus.UP
      · rw [if_pos hcase] at hup
        cases hup
      · rw [if_neg hcase] at hup ⊢
        exact hI.up_timers m hm hup

theorem inv_endGame (s : GState) (hI : Invariant s) : Invariant (endGame s) := by
  have hdrop : s.peepTimers.drop 1 = [] :=
    List.drop_eq_nil_of_le hI.timers_len
  refine ⟨?_, ?_, ?_, ?_, ?_⟩
  · dsimp only [endGame]
    rw [ids_map (fun m => { m with status := MoleStatus.IDLE }) (fun m => rfl),
      hI.ids]
  · dsimp only [endGame]
    rw [hdrop]
    simp
  · intro _
    dsimp only [endGame]
    rw [hdrop]
  · intro p hp
    dsimp only [endGame] at hp
    rw [hdrop] at hp
    cases hp
  · intro m' hm' hup
    dsimp only [endGame] at hm'
    obtain ⟨m, _, rfl⟩ := List.mem_map.mp hm'
    cases hup

theorem inv_fireHide (s : GState) (hI : Invariant s)
    (q : ℚ) (draws : List Nat) (s' : GState)
    (hf : fireHide q draws s = some s') : Invariant s' := by
  rw [fireHide] at hf
  cases htimers : s.peepTimers with
  | nil => rw [htimers] at hf; cases hf
  | cons p rest =>
    obtain ⟨h0, d⟩ := p
    have hrest : rest = [] := by
      have := hI.timers_len
      rw [htimers] at this
      simp at this
      exact this
    subst hrest
    have hplay : s.isPlaying = true := by
      cases hpl : s.isPlaying with
      | true => rfl
      | false =>
        rw [hI.not_playing_timers hpl] at htimers
        cases htimers
    rw [htimers] at hf
    dsimp only at hf
    rw [hplay] at hf
    simp only [if_true] at hf
    set s1 : GState := { s with
      isPlaying := true
      peepTimers := []
      moles := s.moles.map (fun m =>
        if m.id = h0 then { m with status := MoleStatus.IDLE } else m) } with hs1
    apply inv_peep s1 _ rfl _ _ q draws s' hf
    · rw [hs1]
      rw [ids_map _ (fun m => by split <;> rfl), hI.ids]
    · intro m' hm' hup
      rw [hs1] at hm'
      dsimp only at hm'
      obtain ⟨m, hm, rfl⟩ := List.mem_map.mp hm'
      by_cases hcase : m.id = h0
      · rw [if_pos hcase] at hup
        cases hup
      · rw [if_neg hcase] at hup
        obtain ⟨pp, hpp, hppid⟩ := hI.up_timers m hm hup
        rw [htimers] at hpp
        rcases List.mem_cons.mp hpp with rfl | habs
        · exact hcase hppid.symm
        · cases habs
    · rw [hs1]

theorem inv_fireTick (s : GState) (hI : Invariant s) (s' : GState)
    (hf : fireTick s = some s') : Invariant s' := by
  rw [fireTick] at hf
  cases hg : s.gameTimer with
  | false => rw [hg] at hf; cases hf
  | true =>
    rw [hg] at hf
    simp only [Bool.not_true, Bool.false_eq_true, if_false] at hf
    by_cases hl : s.timeLeft ≤ 1
    · rw [if_pos hl] at hf
      cases hf
      have he := inv_endGame s hI
      exact ⟨he.ids, he.timers_len, he.not_playing_timers, he.timers_last,
        he.up_timers⟩
    · rw [if_neg hl] at hf
      cases hf
      exact ⟨hI.ids, hI.timers_len, hI.not_playing_timers, hI.timers_last,
        hI.up_timers⟩

theorem inv_step (e : Event) (s s' : GState) (hI : Invariant s)
    (h : applyEvent e s = some s') : Invariant s' := by
  cases e with
  | start q draws => exact inv_startGame s hI q draws s' h
  | whack id t =>
    cases h
    exact inv_handleWhack s hI id t
  | hide q draws => exact inv_fireHide s hI q draws s' h
  | tick => exact inv_fireTick s hI s' h

theorem inv_runTrace (tr : List Event) (s s' : GState) (hI : Invariant s)
    (h : runTrace tr s = some s') : Invariant s' := by
  induction tr generalizing s with
  | nil =>
    cases h
    exact hI
  | cons e tr ih =>
    rw [runTrace] at h
    cases happ : applyEvent e s with
    | none => rw [happ] at h; cases h
    | some s1 =>
      rw [happ] at h
      exact ih s1 (inv_step e s s1 hI happ) h

theorem reachable_inv (s : GState) (h : Reachable s) : Invariant s := by
  obtain ⟨tr, htr⟩ := h
  exact inv_runTrace tr GState.init s inv_init htr

/-! ### Counting lemmas for the single-visible-mole property -/

theorem countP_up_le_one (l : List MoleData) (hn : (l.map MoleData.id).Nodup)
    (h0 : Nat) (hall : ∀ m ∈ l, m.status = MoleStatus.UP → m.id = h0) :
    l.countP (fun m => m.status == MoleStatus.UP) ≤ 1 := by
  induction l with
  | nil => simp
  | cons a t ih =>
    rw [List.map_cons, List.nodup_cons] at hn
    rw [List.countP_cons]
    by_cases ha : a.status = MoleStatus.UP
    · have haid := hall a (List.mem_cons_self a t) ha
      have ht0 : t.countP (fun m => m.status == MoleStatus.UP) = 0 := by
        rw [List.countP_eq_zero]
        intro m hm hup
        apply hn.1
        have hmid : m.id = h0 :=
          hall m (List.mem_cons_of_mem a hm) (by simpa using hup)
        rw [haid, ← hmid]
        exact List.mem_map_of_mem MoleData.id hm
      rw [ht0]
      simp [ha]
    · have hfalse : (a.status == MoleStatus.UP) = false := by simp [ha]
      rw [hfalse]
      simpa using ih hn.2 (fun m hm => hall m (List.mem_cons_of_mem a hm))

theorem inv_up_count (s : GState) (hI : Invariant s) :
    s.moles.countP (fun m => m.status == MoleStatus.UP) ≤ 1 := by
  cases htimers : s.peepTimers with
  | nil =>
    have hz : s.moles.countP (fun m => m.status == MoleStatus.UP) = 0 := by
      rw [List.countP_eq_zero]
      intro m hm hup
      obtain ⟨p, hp, _⟩ := hI.up_timers m hm (by simpa using hup)
      rw [htimers] at hp
      cases hp
    rw [hz]
    exact Nat.zero_le 1
  | cons p rest =>
    apply countP_up_le_one s.moles (ids_nodup s hI.ids) p.1
    intro m hm hup
    obtain ⟨p', hp', hp'id⟩ := hI.up_timers m hm hup
    have hrest : rest = [] := by
      have := hI.timers_len
      rw [htimers] at this
      simpa using this
    subst hrest
    rw [htimers] at hp'
    rcases List.mem_cons.mp hp' with rfl | habs
    · exact hp'id.symm
    · cases habs

theorem countP_eq_one_of_up (l : List MoleData)
    (hn : (l.map MoleData.id).Nodup) (id : Nat) (m0 : MoleData)
    (hm0 : m0 ∈ l) (hid : m0.id = id) (hup : m0.status = MoleStatus.UP) :
    l.countP (fun m => decide (m.id = id ∧ m.status = MoleStatus.UP)) = 1 := by
  induction l with
  | nil => cases hm0
  | cons a t ih =>
    rw [List.map_cons, List.nodup_cons] at hn
    rw [List.countP_cons]
    rcases List.mem_cons.mp hm0 with rfl | hm0t
    · have hd : decide (m0.id = id ∧ m0.status = MoleStatus.UP) = true := by
        simp [hid, hup]
      rw [hd]
      have ht0 :
          t.countP (fun m => decide (m.id = id ∧ m.status = MoleStatus.UP)) = 0 := by
        rw [List.countP_eq_zero]
        intro m hm hdm
        simp only [decide_eq_true_eq] at hdm
        apply hn.1
        rw [hid, ← hdm.1]
        exact List.mem_map_of_mem MoleData.id hm
      rw [ht0]
      simp
    · have haid : a.id ≠ id := by
        intro hh
        apply hn.1
        rw [hh, ← hid]
        exact List.mem_map_of_mem MoleData.id hm0t
      have hd : decide (a.id = id ∧ a.status = MoleStatus.UP) = false := by
        simp [haid]
      rw [hd]
      simpa using ih hn.2 hm0t

theorem exists_mole (l : List MoleData)
    (hids : l.map MoleData.id = List.range HOLE_COUNT)
    (i : Nat) (hi : i < HOLE_COUNT) : ∃ m ∈ l, m.id = i := by
  have : i ∈ l.map MoleData.id := by
    rw [hids]
    exact List.mem_range.mpr hi
  obtain ⟨m, hm, hmi⟩ := List.mem_map.mp this
  exact ⟨m, hm, hmi⟩

/-! ### Claim theorems -/

/-- C9: whenever `randomHole` (the scheduler's slot draw) returns a slot, that
slot differs from the previous slot, for any board with at least two slots and
across every sequence of draws. -/
theorem claim_scheduler_no_repeat (moles : List MoleData) (previousSlot : Int)
    (_hN : 2 ≤ moles.length) (draws : List Nat) (slot : Nat)
    (hdraw : randomHole moles previousSlot draws = some slot) :
    (slot : Int) ≠ previousSlot :=
  randomHole_ne_last moles previousSlot draws slot hdraw

theorem claim_scheduler_no_repeat_witness :
    ((0 : Nat) : Int) ≠ (2 : Int) :=
  claim_scheduler_no_repeat initMoles 2 (by decide) [0] 0 (by decide)

/-- A draw in [0,1) that makes `randomTime` hit the upper endpoint `maxMs`. -/
def maxDrawFor (minMs maxMs : Int) : ℚ :=
  if minMs = maxMs then 0
  else (((maxMs - minMs : Int) : ℚ) - 1/2) / ((maxMs - minMs : Int) : ℚ)

/-- C10: for every `minMs ≤ maxMs` and every draw `q ∈ [0,1)`, the drawn
duration `randomTime minMs maxMs q` is an integer within `[minMs, maxMs]`
inclusive, and both endpoints are attained by draws in `[0,1)`. -/
theorem claim_duration_in_range (minMs maxMs : Int) (q : ℚ)
    (hle : minMs ≤ maxMs) (h0 : 0 ≤ q) (h1 : q < 1) :
    minMs ≤ randomTime minMs maxMs q ∧
    randomTime minMs maxMs q ≤ maxMs ∧
    randomTime minMs maxMs 0 = minMs ∧
    0 ≤ maxDrawFor minMs maxMs ∧
    maxDrawFor minMs maxMs < 1 ∧
    randomTime minMs maxMs (maxDrawFor minMs maxMs) = maxMs := by
  have hcast : (minMs:ℚ) ≤ (maxMs:ℚ) := by exact_mod_cast hle
  have hdq : (0:ℚ) ≤ (maxMs:ℚ) - (minMs:ℚ) := by linarith
  have h12 : ⌊(1/2 : ℚ)⌋ = 0 := by
    rw [Int.floor_eq_iff]
    norm_num
  have hmin0 : ∀ a b : Int, randomTime a b 0 = a := by
    intro a b
    rw [randomTime, round_eq]
    have harith : (0:ℚ) * ((b:ℚ) - (a:ℚ)) + (a:ℚ) + 1/2 = (a:ℚ) + 1/2 := by
      ring
    rw [harith, Int.floor_int_add, h12]
    omega
  refine ⟨?_, ?_, hmin0 minMs maxMs, ?_, ?_, ?_⟩
  · rw [randomTime, round_eq, Int.le_floor]
    nlinarith
  · rw [randomTime, round_eq]
    have hlt : ⌊q * ((maxMs:ℚ) - (minMs:ℚ)) + (minMs:ℚ) + 1/2⌋ < maxMs + 1 := by
      rw [Int.floor_lt]
      push_cast
      nlinarith
    omega
  · rw [maxDrawFor]
    split
    · exact le_refl 0
    · next hne =>
      have hlt : minMs < maxMs := lt_of_le_of_ne hle hne
      have hd1 : (1:ℚ) ≤ ((maxMs - minMs : Int):ℚ) := by
        have : (1:Int) ≤ maxMs - minMs := by omega
        exact_mod_cast this
      apply div_nonneg <;> linarith
  · rw [maxDrawFor]
    split
    · norm_num
    · next hne =>
      have hlt : minMs < maxMs := lt_of_le_of_ne hle hne
      have hd1 : (1:ℚ) ≤ ((maxMs - minMs : Int):ℚ) := by
        have : (1:Int) ≤ maxMs - minMs := by omega
        exact_mod_cast this
      rw [div_lt_one (by linarith)]
      linarith
  · rw [maxDrawFor]
    split
    · next heq =>
      subst heq
      exact hmin0 minMs minMs
    · next hne =>
      have hlt : minMs < maxMs := lt_of_le_of_ne hle hne
      have hdpos : (0:ℚ) < ((maxMs - minMs : Int):ℚ) := by
        have : (0:Int) < maxMs - minMs := by omega
        exact_mod_cast this
      rw [randomTime]
      have hmul :
          (((maxMs - minMs : Int):ℚ) - 1/2) / ((maxMs - minMs : Int):ℚ) *
            ((maxMs:ℚ) - (minMs:ℚ)) =
          ((maxMs - minMs : Int):ℚ) - 1/2 := by
        have hrw : ((maxMs:ℚ) - (minMs:ℚ)) = ((maxMs - minMs : Int):ℚ) := by
          push_cast
          ring
        rw [hrw]
        exact div_mul_cancel₀ _ (ne_of_gt hdpos)
      rw [hmul, round_eq]
      have harith : ((maxMs - minMs : Int):ℚ) - 1/2 + (minMs:ℚ) + 1/2 =
          ((maxMs : Int):ℚ) := by
        push_cast
        ring
      rw [harith, Int.floor_intCast]

theorem claim_duration_in_range_witness :
    (400:Int) ≤ randomTime 400 1000 0 ∧
    randomTime 400 1000 0 ≤ 1000 ∧
    randomTime 400 1000 0 = 400 ∧
    0 ≤ maxDrawFor 400 1000 ∧
    maxDrawFor 400 1000 < 1 ∧
    randomTime 400 1000 (maxDrawFor 400 1000) = 1000 :=
  claim_duration_in_range 400 1000 0 (by norm_num) (by norm_num) (by norm_num)

/-- The end state of a first round in which the player scored one hit: Start
at mount (first appearance hole 0), one trusted whack on hole 0, then 30
clock ticks end the round. -/
def bugRound : GState :=
  { moles := initMoles
    score := 1
    highScore := 0
    timeLeft := 0
    isPlaying := false
    lastHole := 0
    peepTimers := []
    gameTimer := false
    capturedScore := 0 }

/-- C1, refuted by the code: the claim states BestScore-after =
max(BestScore-before, final score of the round), but the source's `endGame`
only ever runs through the interval callback, whose closure captured `score`
from the Start-click render (src/App.tsx lines 101 and 120), so it stores
max(BestScore-before, pre-round score) instead.  In the concrete round below
the final score is 1 and BestScore-before is 0, so the claim requires the
stored best score to become max(0, 1) = 1, yet the program ends the round
with highScore = 0. -/
theorem claim_best_score_stale :
    runTrace (Event.start 0 [0] :: Event.whack 0 true ::
        List.replicate 30 Event.tick) GState.init = some bugRound ∧
    bugRound.score = 1 ∧
    bugRound.highScore = 0 ∧
    Nat.max GState.init.highScore bugRound.score = 1 := by
  refine ⟨rfl, rfl, rfl, by decide⟩

theorem nat_max_absorb (a b : Nat) : Nat.max (Nat.max a b) b = Nat.max a b := by
  show max (max a b) b = max a b
  rcases le_total a b with h | h
  · rw [max_eq_right h, max_self]
  · rw [max_eq_left h, max_eq_left h]

/-- C7: stopping is idempotent on the game state: `endGame` applied to an
already-ended (reachable) state changes nothing more, and at the mount state
(NOT_STARTED) `endGame` is the identity. -/
theorem claim_stop_idempotent (s : GState) (hr : Reachable s) :
    endGame (endGame s) = endGame s ∧ endGame GState.init = GState.init := by
  have hI := reachable_inv s hr
  have hdrop : s.peepTimers.drop 1 = [] := List.drop_eq_nil_of_le hI.timers_len
  constructor
  · show GState.mk _ _ _ _ _ _ _ _ _ = GState.mk _ _ _ _ _ _ _ _ _
    simp only [endGame, GState.mk.injEq, and_true, true_and]
    refine ⟨?_, ?_, ?_⟩
    · rw [List.map_map]
      exact List.map_congr_left (fun m _ => rfl)
    · exact nat_max_absorb s.highScore s.capturedScore
    · rw [hdrop]
      rfl
  · decide

theorem claim_stop_idempotent_witness :
    endGame (endGame GState.init) = endGame GState.init ∧
    endGame GState.init = GState.init :=
  claim_stop_idempotent GState.init ⟨[], rfl⟩

/-- C4: a hit that is untrusted, or arrives while not playing, or names a slot
that is not currently UP, is a silent no-op: the whole state (score and every
slot) is unchanged, and `handleWhack` is total (no error path). -/
theorem claim_invalid_hit_noop (s : GState) (id : Nat) (t : Bool)
    (h : t = false ∨ s.isPlaying = false ∨
      ∀ m ∈ s.moles, m.id = id → m.status ≠ MoleStatus.UP) :
    handleWhack id t s = s := by
  rcases h with rfl | hplay | hnone
  · rfl
  · simp [handleWhack, hplay]
  · rw [handleWhack]
    split
    · rfl
    · have hmap : s.moles.map (fun m =>
          if m.id = id ∧ m.status = MoleStatus.UP then
            { m with status := MoleStatus.WHACKED }
          else m) = s.moles := by
        have hcong : ∀ m ∈ s.moles,
            (if m.id = id ∧ m.status = MoleStatus.UP then
              { m with status := MoleStatus.WHACKED }
            else m) = m := by
          intro m hm
          rw [if_neg]
          rintro ⟨h1, h2⟩
          exact hnone m hm h1 h2
        rw [List.map_congr_left hcong, List.map_id']
      have hcount : s.moles.countP
          (fun m => decide (m.id = id ∧ m.status = MoleStatus.UP)) = 0 := by
        rw [List.countP_eq_zero]
        intro m hm hd
        simp only [decide_eq_true_eq] at hd
        exact hnone m hm hd.1 hd.2
      rw [hmap, hcount]
      simp

theorem claim_invalid_hit_noop_witness :
    handleWhack 0 false GState.init = GState.init :=
  claim_invalid_hit_noop GState.init 0 false (Or.inl rfl)

theorem ended_state_stuck (t : GState)
    (hplay : t.isPlaying = false) (htimers : t.peepTimers = [])
    (hg : t.gameTimer = false) (e : Event)
    (hne : ∀ q draws, e ≠ Event.start q draws) (s' : GState)
    (h : applyEvent e t = some s') : s' = t := by
  cases e with
  | start q draws => exact absurd rfl (hne q draws)
  | whack id tr =>
    cases h
    simp [handleWhack, hplay]
  | hide q draws =>
    rw [applyEvent, fireHide_none t htimers] at h
    cases h
  | tick =>
    rw [applyEvent, fireTick_none t hg] at h
    cases h

/-- C3: once `endGame` has run on a reachable state, no later sequence of
events other than a fresh Start — whacks, hide-timer firings, clock ticks —
can change anything: pending timers were cancelled, so the state stays
exactly `endGame s`. -/
theorem claim_stop_cancellation (s : GState) (hr : Reachable s)
    (tr : List Event) (hnostart : ∀ e ∈ tr, ∀ q draws, e ≠ Event.start q draws)
    (s' : GState) (hrun : runTrace tr (endGame s) = some s') :
    s' = endGame s := by
  have hI := reachable_inv s hr
  have hdrop : (endGame s).peepTimers = [] :=
    List.drop_eq_nil_of_le hI.timers_len
  induction tr with
  | nil =>
    cases hrun
    rfl
  | cons e rest ih =>
    rw [runTrace] at hrun
    cases happ : applyEvent e (endGame s) with
    | none => rw [happ] at hrun; cases hrun
    | some s1 =>
      rw [happ] at hrun
      have hs1 : s1 = endGame s :=
        ended_state_stuck (endGame s) rfl hdrop rfl e
          (hnostart e (List.mem_cons_self e rest)) s1 happ
      rw [hs1] at hrun
      exact ih (fun e' he' => hnostart e' (List.mem_cons_of_mem e he')) hrun

theorem claim_stop_cancellation_witness :
    endGame GState.init = endGame GState.init :=
  claim_stop_cancellation GState.init ⟨[], rfl⟩
    [Event.whack 0 true, Event.whack 3 false]
    (by
      intro e he q draws
      rcases List.mem_cons.mp he with rfl | he2
      · intro hax
        cases hax
      · rcases List.mem_cons.mp he2 with rfl | he3
        · intro hax
          cases hax
        · cases he3)
    (endGame GState.init) rfl

/-- C8: in every reachable state at most one slot is UP (VISIBLE), and at
most one hide timer is pending. -/
theorem claim_single_visible (s : GState) (hr : Reachable s) :
    s.moles.countP (fun m => m.status == MoleStatus.UP) ≤ 1 ∧
    s.peepTimers.length ≤ 1 := by
  have hI := reachable_inv s hr
  exact ⟨inv_up_count s hI, hI.timers_len⟩

/-- The state reached by clicking Start at mount, when the scheduler first
draws hole 0: the concrete witness state used below. -/
def afterStart : GState :=
  { moles := [⟨0, MoleStatus.UP⟩, ⟨1, MoleStatus.IDLE⟩, ⟨2, MoleStatus.IDLE⟩,
              ⟨3, MoleStatus.IDLE⟩, ⟨4, MoleStatus.IDLE⟩, ⟨5, MoleStatus.IDLE⟩]
    score := 0
    highScore := 0
    timeLeft := 30
    isPlaying := true
    lastHole := 0
    peepTimers := [(0, randomTime MIN_PEEP_TIME MAX_PEEP_TIME 0)]
    gameTimer := true
    capturedScore := 0 }

theorem claim_single_visible_witness :
    afterStart.moles.countP (fun m => m.status == MoleStatus.UP) ≤ 1 ∧
    afterStart.peepTimers.length ≤ 1 :=
  claim_single_visible afterStart ⟨[Event.start 0 [0]], rfl⟩

theorem handleWhack_accepted (s : GState) (id : Nat)
    (hplay : s.isPlaying = true) :
    handleWhack id true s = { s with
      moles := s.moles.map (fun m =>
        if m.id = id ∧ m.status = MoleStatus.UP then
          { m with status := MoleStatus.WHACKED }
        else m)
      score := s.score + s.moles.countP
        (fun m => decide (m.id = id ∧ m.status = MoleStatus.UP)) } := by
  have hc : (!true || !s.isPlaying) = false := by
    rw [hplay]
    rfl
  rw [handleWhack, if_neg (fun h => by rw [hc] at h; cases h)]

theorem handleWhack_rejected (s : GState) (id : Nat) (t : Bool)
    (hg : (!t || !s.isPlaying) = true) : handleWhack id t s = s := by
  rw [handleWhack, if_pos hg]

/-- C5: a trusted hit on a slot that is UP while playing scores exactly +1 and
marks that slot WHACKED; while not playing a hit changes nothing; and any hit
on a reachable state changes the score by 0, or by exactly +1 when it was
accepted (trusted, playing). -/
theorem claim_valid_hit_scores (s : GState) (hr : Reachable s) (id : Nat)
    (hplay : s.isPlaying = true)
    (hup : ∃ m ∈ s.moles, m.id = id ∧ m.status = MoleStatus.UP)
    (s₂ : GState) (hr₂ : Reachable s₂) (id₂ : Nat) (t₂ : Bool) :
    (handleWhack id true s).score = s.score + 1 ∧
    statusAt (handleWhack id true s) id = some MoleStatus.WHACKED ∧
    (s₂.isPlaying = false → handleWhack id₂ t₂ s₂ = s₂) ∧
    ((handleWhack id₂ t₂ s₂).score = s₂.score ∨
      ((handleWhack id₂ t₂ s₂).score = s₂.score + 1 ∧ t₂ = true ∧
        s₂.isPlaying = true)) := by
  have hI := reachable_inv s hr
  have hI₂ := reachable_inv s₂ hr₂
  obtain ⟨m0, hm0, hm0id, hm0up⟩ := hup
  have hn := ids_nodup s hI.ids
  have hcount1 := countP_eq_one_of_up s.moles hn id m0 hm0 hm0id hm0up
  refine ⟨?_, ?_, ?_, ?_⟩
  · rw [handleWhack_accepted s id hplay]
    dsimp only
    rw [hcount1]
  · rw [handleWhack_accepted s id hplay, statusAt_eq]
    dsimp only
    rw [find?_map_status _ (fun m => by split <;> rfl) s.moles id]
    have hfind : s.moles.find? (fun m' => m'.id == id) = some m0 := by
      have hx := find?_eq_of_mem s.moles hn m0 hm0
      rw [hm0id] at hx
      exact hx
    rw [hfind]
    simp [hm0id, hm0up]
  · intro hnp
    apply handleWhack_rejected
    rw [hnp]
    simp
  · by_cases hg2 : (!t₂ || !s₂.isPlaying) = true
    · left
      rw [handleWhack_rejected s₂ id₂ t₂ hg2]
    · have hga : t₂ = true ∧ s₂.isPlaying = true := by
        constructor
        · cases t₂
          · exact absurd rfl hg2
          · rfl
        · cases hp2 : s₂.isPlaying
          · exact absurd (by rw [hp2]; simp) hg2
          · rfl
      obtain ⟨ht2, hp2⟩ := hga
      subst ht2
      have hmono : s₂.moles.countP
            (fun m => decide (m.id = id₂ ∧ m.status = MoleStatus.UP)) ≤
          s₂.moles.countP (fun m => m.status == MoleStatus.UP) := by
        apply List.countP_mono_left
        intro m _ hd
        simp only [decide_eq_true_eq] at hd
        simp [hd.2]
      have hle1 : s₂.moles.countP
          (fun m => decide (m.id = id₂ ∧ m.status = MoleStatus.UP)) ≤ 1 :=
        le_trans hmono (inv_up_count s₂ hI₂)
      rcases Nat.le_one_iff_eq_zero_or_eq_one.mp hle1 with h0 | h1
      · left
        rw [handleWhack_accepted s₂ id₂ hp2]
        dsimp only
        rw [h0]
        omega
      · right
        refine ⟨?_, rfl, hp2⟩
        rw [handleWhack_accepted s₂ id₂ hp2]
        dsimp only
        rw [h1]

theorem claim_valid_hit_scores_witness :
    (handleWhack 0 true afterStart).score = afterStart.score + 1 ∧
    statusAt (handleWhack 0 true afterStart) 0 = some MoleStatus.WHACKED ∧
    (GState.init.isPlaying = false →
      handleWhack 0 true GState.init = GState.init) ∧
    ((handleWhack 0 true GState.init).score = GState.init.score ∨
      ((handleWhack 0 true GState.init).score = GState.init.score + 1 ∧
        true = true ∧ GState.init.isPlaying = true)) :=
  claim_valid_hit_scores afterStart ⟨[Event.start 0 [0]], rfl⟩ 0 rfl
    (by decide) GState.init ⟨[], rfl⟩ 0 true

/-- C6: when the pending hide timer fires, the shown hole is forced to IDLE
(HIDDEN) unconditionally — whatever its status, including WHACKED — and a
whack never changes the pending hide timers (it neither shortens nor extends
them). -/
theorem claim_hide_unconditional (s : GState) (hr : Reachable s)
    (q : ℚ) (draws : List Nat) (s' : GState)
    (hf : fireHide q draws s = some s')
    (h0 : Nat) (d : Int) (rest : List (Nat × Int))
    (hp : s.peepTimers = (h0, d) :: rest) (id : Nat) (t : Bool) :
    statusAt s' h0 = some MoleStatus.IDLE ∧
    (handleWhack id t s).peepTimers = s.peepTimers := by
  have hI := reachable_inv s hr
  have hplay : s.isPlaying = true := by
    cases hpl : s.isPlaying with
    | true => rfl
    | false =>
      rw [hI.not_playing_timers hpl] at hp
      cases hp
  have hlast : (h0 : Int) = s.lastHole ∧ h0 < HOLE_COUNT := by
    apply hI.timers_last (h0, d)
    rw [hp]
    exact List.mem_cons_self _ _
  constructor
  · rw [fireHide, hp] at hf
    dsimp only at hf
    rw [hplay] at hf
    rw [if_pos rfl] at hf
    obtain ⟨h1, hr1, rfl⟩ := peep_some_playing _ rfl q draws s' hf
    have hne : (h1 : Int) ≠ s.lastHole := by
      have := randomHole_ne_last _ _ _ _ hr1
      exact this
    have hne0 : h0 ≠ h1 := by
      intro hcontra
      apply hne
      rw [← hcontra]
      exact hlast.1
    obtain ⟨m0, hm0, hm0id⟩ := exists_mole s.moles hI.ids h0 hlast.2
    have hfind : s.moles.find? (fun m' => m'.id == h0) = some m0 := by
      have hx := find?_eq_of_mem s.moles (ids_nodup s hI.ids) m0 hm0
      rw [hm0id] at hx
      exact hx
    rw [statusAt_eq]
    dsimp only
    rw [find?_id_map _ (fun m => by split <;> rfl),
      find?_id_map _ (fun m => by split <;> rfl), hfind]
    simp only [Option.map_some']
    have hstep1 : (if m0.id = h0 then { m0 with status := MoleStatus.IDLE }
        else m0) = { m0 with status := MoleStatus.IDLE } := by
      rw [if_pos hm0id]
    rw [hstep1]
    have hstep2 : (if ({ m0 with status := MoleStatus.IDLE } : MoleData).id = h1
        then { ({ m0 with status := MoleStatus.IDLE } : MoleData) with
          status := MoleStatus.UP }
        else { m0 with status := MoleStatus.IDLE }) =
        { m0 with status := MoleStatus.IDLE } := by
      rw [if_neg]
      intro hcontra
      dsimp only at hcontra
      rw [hm0id] at hcontra
      exact hne0 hcontra
    rw [hstep2]
  · rw [handleWhack]
    split
    · rfl
    · rfl

/-- The state reached from `afterStart` when hole 0's hide timer fires and the
scheduler then shows hole 1. -/
def afterHide : GState :=
  { moles := [⟨0, MoleStatus.IDLE⟩, ⟨1, MoleStatus.UP⟩, ⟨2, MoleStatus.IDLE⟩,
              ⟨3, MoleStatus.IDLE⟩, ⟨4, MoleStatus.IDLE⟩, ⟨5, MoleStatus.IDLE⟩]
    score := 0
    highScore := 0
    timeLeft := 30
    isPlaying := true
    lastHole := 1
    peepTimers := [(1, randomTime MIN_PEEP_TIME MAX_PEEP_TIME 0)]
    gameTimer := true
    capturedScore := 0 }

theorem claim_hide_unconditional_witness :
    statusAt afterHide 0 = some MoleStatus.IDLE ∧
    (handleWhack 2 true afterStart).peepTimers = afterStart.peepTimers :=
  claim_hide_unconditional afterStart ⟨[Event.start 0 [0]], rfl⟩ 0 [1]
    afterHide rfl 0 (randomTime MIN_PEEP_TIME MAX_PEEP_TIME 0) [] rfl 2 true

/-- The ended state after a full round started with first hole 2: Start was
clicked at mount (scheduler drew hole 2), and the clock then ticked the round
to its end.  Note `lastHole` stays 2: `startGame` never resets it. -/
def postRound : GState :=
  { moles := initMoles
    score := 0
    highScore := 0
    timeLeft := 0
    isPlaying := false
    lastHole := 2
    peepTimers := []
    gameTimer := false
    capturedScore := 0 }

/-- Counterexample to C2: `postRound` is reached by an actual round (Start,
then 30 clock ticks) whose last shown slot was 2; restarting from it can
never show slot 2 first, because `startGame` does not reset `lastHoleRef`
to the −1 sentinel — so a slot IS excluded at the start of the second round,
contradicting the claim. -/
theorem claim_round_start_sentinel_counterexample :
    runTrace (Event.start 0 [2] :: List.replicate 30 Event.tick) GState.init =
      some postRound ∧
    postRound.lastHole = 2 ∧
    ¬ ∃ (q : ℚ) (draws : List Nat) (s' : GState),
        startGame q draws postRound = some s' ∧
        statusAt s' 2 = some MoleStatus.UP := by
  refine ⟨rfl, rfl, ?_⟩
  rintro ⟨q, draws, s', hs, hstat⟩
  obtain ⟨h, hr, rfl⟩ := startGame_some_not_playing postRound rfl q draws s' hs
  have hne : (h : Int) ≠ 2 := randomHole_ne_last _ _ _ _ hr
  have hne' : h ≠ 2 := fun hh => hne (by rw [hh]; rfl)
  rw [statusAt_eq] at hstat
  dsimp only at hstat
  rw [find?_id_map _ (fun m => by split <;> rfl)] at hstat
  rw [find?_initMoles 2 (by decide)] at hstat
  simp only [Option.map_some'] at hstat
  rw [if_neg (fun hc => hne' hc.symm)] at hstat
  cases hstat

/-- C2 as amended: the −1 sentinel for the previous slot exists only at
component mount; `startGame` leaves `lastHoleRef` untouched, so while the
very first round may open on any of the six slots, every later round's first
appearance excludes the last slot shown in the previous round. -/
theorem claim_round_start_sentinel_amended (s : GState)
    (hplay : s.isPlaying = false) (q : ℚ) (draws : List Nat) (s' : GState)
    (hs : startGame q draws s = some s') (i : Nat) (hi : (i : Int) = s.lastHole)
    (j : Nat) (hj : j < HOLE_COUNT) :
    GState.init.lastHole = -1 ∧
    s'.lastHole ≠ s.lastHole ∧
    statusAt s' i ≠ some MoleStatus.UP ∧
    (startGame 0 [j] GState.init).map (fun u => statusAt u j) =
      some (some MoleStatus.UP) := by
  obtain ⟨h, hr, rfl⟩ := startGame_some_not_playing s hplay q draws s' hs
  have hne := randomHole_ne_last _ _ _ _ hr
  have hij : i ≠ h := by
    intro hcontra
    subst hcontra
    exact hne hi
  refine ⟨rfl, hne, ?_, ?_⟩
  · intro habs
    rw [statusAt_eq] at habs
    dsimp only at habs
    rw [find?_id_map _ (fun m => by split <;> rfl)] at habs
    cases hfind : initMoles.find? (fun m => m.id == i) with
    | none =>
      rw [hfind] at habs
      cases habs
    | some m =>
      rw [hfind] at habs
      simp only [Option.map_some'] at habs
      have hmid : m.id = i := by simpa using List.find?_some hfind
      have hmst : m.status = MoleStatus.IDLE :=
        initMoles_status m (List.mem_of_find?_eq_some hfind)
      rw [if_neg (fun hc => hij (by rw [← hmid]; exact hc))] at habs
      rw [hmst] at habs
      cases habs
  · have hall : ∀ jj : Nat, jj < HOLE_COUNT →
        (startGame 0 [jj] GState.init).map (fun u => statusAt u jj) =
          some (some MoleStatus.UP) := by decide
    exact hall j hj

/-- The state reached by restarting from `postRound` when the scheduler draws
hole 0 first. -/
def postStart : GState :=
  { moles := [⟨0, MoleStatus.UP⟩, ⟨1, MoleStatus.IDLE⟩, ⟨2, MoleStatus.IDLE⟩,
              ⟨3, MoleStatus.IDLE⟩, ⟨4, MoleStatus.IDLE⟩, ⟨5, MoleStatus.IDLE⟩]
    score := 0
    highScore := 0
    timeLeft := 30
    isPlaying := true
    lastHole := 0
    peepTimers := [(0, randomTime MIN_PEEP_TIME MAX_PEEP_TIME 0)]
    gameTimer := true
    capturedScore := 0 }

theorem claim_round_start_sentinel_amended_witness :
    GState.init.lastHole = -1 ∧
    postStart.lastHole ≠ postRound.lastHole ∧
    statusAt postStart 2 ≠ some MoleStatus.UP ∧
    (startGame 0 [5] GState.init).map (fun u => statusAt u 5) =
      some (some MoleStatus.UP) :=
  claim_round_start_sentinel_amended postRound rfl 0 [0] postStart rfl
    2 rfl 5 (by decide)
